import Mathlib

/-!
Shallow embedding of `ghstack/eden_shell.py`: a command-translation shim
(`EdenShell`) that intercepts a fixed set of git-style command argument lists
and re-expresses them as invocations of the Eden/Mercurial CLI (`hg`) against
a bare git repository.

Conventions of the embedding:

* Python lists of strings become `List String`.
* The pattern elements passed to `match_args` are dynamically typed in Python
  (literal strings, the `WILDCARD_ARG` sentinel dict, or - erroneously - any
  other object); they become the inductive `PatternArg`.
* Python exceptions become `Except GitError`; the error constructors carry the
  data interpolated into the Python exception message.
* Each subprocess-level call issued by the translator is recorded in a trace
  (`List Cmd`): `Cmd.eden args` models one `self._run_eden_command(args)`
  call, and `Cmd.gitPassthrough args` models the final delegation
  `super().git(*full_args)` to the generic command runner.
* The captured (already whitespace-trimmed) output of each eden command is
  supplied by an oracle `EdenOracle : List String → String`, and the output of
  the generic git runner by `GitOracle : List String → String`, so that the
  control flow and string rewriting of the shim itself stay fully executable.
* Python string slicing/searching (`arg.index(':')`, `str.rfind('/')`,
  `startswith`/`[len(prefix):]`) is carried out on `List Char` via `toList`.
-/

/-- `EDEN_CLI = "hg"` from the source. -/
def EDEN_CLI : String := "hg"

/-- `EDEN_PLAIN_ENV_VAR = "HGPLAIN"` from the source. -/
def EDEN_PLAIN_ENV_VAR : String := "HGPLAIN"

/-- A pattern element for `match_args`.  In Python a pattern element is either
a literal string, the `WILDCARD_ARG` sentinel (an empty dict compared by
identity), or - a programming error - any other object; `other descr` stands
for such an unrecognized element (`descr` abstracts the object's printed
form). -/
inductive PatternArg where
  | lit (s : String)
  | wildcard
  | other (descr : String)
deriving DecidableEq, Repr

/-- `WILDCARD_ARG` sentinel from the source. -/
def WILDCARD_ARG : PatternArg := PatternArg.wildcard

/-- Errors raised by the shim (`raise Exception(...)` / `ValueError` from
`str.index`).  Each constructor carries the data that the Python code
interpolates into the exception message. -/
inductive GitError where
  | expectedExactly3Args (args : List String)
  | expectedMoreArgs (args : List String)
  | substringNotFound (arg : String)
  | unknownPatternType (descr : String)
deriving DecidableEq, Repr

/-- One subprocess-level call issued by the translator.  `eden args` is one
`self._run_eden_command(args)` invocation (argv `EDEN_CLI :: args`, env with
`HGPLAIN=1`); `gitPassthrough args` is the delegation `super().git(*args)` to
the generic runner. -/
inductive Cmd where
  | eden (args : List String)
  | gitPassthrough (args : List String)
deriving DecidableEq, Repr

/-- Output oracle for `_run_eden_command`: maps the argument list of an eden
command to its captured, trimmed standard output. -/
abbrev EdenOracle := List String → String

/-- Output oracle for the generic runner reached through `super().git`. -/
abbrev GitOracle := List String → String

/-- Configuration: only `remote_name` is consulted by the shim. -/
structure Config where
  remote_name : String
deriving DecidableEq, Repr

/-- The translator's state after construction: the configuration and the
repository handle `git_dir` resolved once by the constructor. -/
structure EdenShell where
  conf : Config
  git_dir : String
deriving DecidableEq, Repr

/-- `match_args(pattern, args)` from the source:

```python
def match_args(pattern, args):
    if len(pattern) > len(args):
        return False
    for pattern_arg, arg in zip(pattern, args):
        if pattern_arg is WILDCARD_ARG:
            continue
        elif isinstance(pattern_arg, str):
            if pattern_arg != arg:
                return False
        else:
            raise Exception(f"Unknown pattern type ...")
    return True
```

The loop over `zip(pattern, args)` is `matchLoop`; an unrecognized pattern
element raises, modeled as `Except.error`. -/
def matchLoop : List (PatternArg × String) → Except GitError Bool
  | [] => Except.ok true
  | (p, a) :: rest =>
    match p with
    | PatternArg.wildcard => matchLoop rest
    | PatternArg.lit s => if s ≠ a then Except.ok false else matchLoop rest
    | PatternArg.other d => Except.error (GitError.unknownPatternType d)

/-- See `matchLoop`: the length guard followed by the zip loop. -/
def match_args (pattern : List PatternArg) (args : List String) :
    Except GitError Bool :=
  if pattern.length > args.length then Except.ok false
  else matchLoop (pattern.zip args)

/-- `arg.index(':')` followed by the two slices `arg[:i]` / `arg[i+1:]`:
splits at the FIRST colon, `none` when there is no colon (Python raises
`ValueError: substring not found`). -/
def splitFirstColon : List Char → Option (List Char × List Char)
  | [] => none
  | c :: rest =>
    if c = ':' then some ([], rest)
    else
      match splitFirstColon rest with
      | none => none
      | some (pre, post) => some (c :: pre, post)

/-- `remote.rfind('/')` followed by the slice `remote[(index+1):]` when the
slash was found: the suffix after the LAST `/`, or the whole string when it
contains no `/`. -/
def afterLastSlash : List Char → List Char
  | [] => []
  | c :: rest =>
    if '/' ∈ rest then afterLastSlash rest
    else if c = '/' then rest
    else c :: rest

/-- The argument list of `self._get_origin()`'s eden command
(`["config", "paths.default"]`). -/
def getOriginArgs : List String := ["config", "paths.default"]

/-- The argument list of the eden command resolving `HEAD` to the current tip
in `_rewrite_args`. -/
def resolveHeadArgs : List String := ["log", "-r", "max(.::)", "-T", "{node}"]

deriving instance DecidableEq for Except

namespace EdenShell

/-- `EdenShell._push_branches(is_force, branch_args)` from the source, plus
the accumulator `last_result` of the loop.  For each mapping string it splits
at the first `:` (raising when there is none), strips a leading `refs/heads/`
from the refspec, runs `hg pull -r <hash>` and then
`hg push -r <hash> --to <refspec> --force`, and returns the output of the
last push.  `is_force` is accepted but - exactly as in the source - never
used: `--force` is always appended.  The second component is the trace of
eden commands issued before the outcome. -/
def _push_branches (is_force : Bool) (eden : EdenOracle) :
    List String → Option String → Except GitError (Option String) × List Cmd
  | [], last_result => (Except.ok last_result, [])
  | arg :: rest, _last_result =>
    match splitFirstColon arg.toList with
    | none => (Except.error (GitError.substringNotFound arg), [])
    | some (hashChars, refspecChars) =>
      let commit_hash := String.mk hashChars
      let prefixChars := "refs/heads/".toList
      let refspec :=
        if prefixChars.isPrefixOf refspecChars then
          String.mk (refspecChars.drop prefixChars.length)
        else String.mk refspecChars
      let pullArgs := ["pull", "-r", commit_hash]
      let pushArgs := ["push", "-r", commit_hash, "--to", refspec, "--force"]
      let result := eden pushArgs
      let next := _push_branches is_force eden rest (some result)
      (next.1, Cmd.eden pullArgs :: Cmd.eden pushArgs :: next.2)

/-- `EdenShell._rewrite_args(args)` from the source: when the literal token
`HEAD` occurs in the list, resolve the current tip once via the backing tool
and substitute it for every `HEAD` occurrence; otherwise return the list
untouched.  The second component is the trace of eden commands issued. -/
def _rewrite_args (eden : EdenOracle) (args : List String) :
    List String × List Cmd :=
  if "HEAD" ∈ args then
    let top := eden resolveHeadArgs
    (args.map fun a => if a = "HEAD" then top else a, [Cmd.eden resolveHeadArgs])
  else (args, [])

/-- `EdenShell.git(*args)` from the source: the pattern dispatch.  Patterns
are tried in source order (remote get-url, fetch --prune, merge-base, push);
on no match the args are rewritten (`_rewrite_args`), prefixed with
`--git-dir <git_dir>` and delegated to the generic runner.  Returns the
outcome (`Except`) paired with the trace of subprocess calls issued. -/
def git (S : EdenShell) (eden : EdenOracle) (superGit : GitOracle)
    (args : List String) : Except GitError (Option String) × List Cmd :=
  let remote_name := S.conf.remote_name
  if match_args [PatternArg.lit "remote", PatternArg.lit "get-url",
      PatternArg.lit remote_name] args = Except.ok true then
    (Except.ok (some (eden getOriginArgs)), [Cmd.eden getOriginArgs])
  else if match_args [PatternArg.lit "fetch", PatternArg.lit "--prune",
      PatternArg.lit remote_name] args = Except.ok true then
    if args.length ≠ 3 then
      (Except.error (GitError.expectedExactly3Args args), [])
    else
      let origin := eden getOriginArgs
      let args2 := (args.set 2 origin) ++ ["+refs/heads/*:refs/remotes/origin/*"]
      let rewritten := _rewrite_args eden args2
      let full_args := ["--git-dir", S.git_dir] ++ rewritten.1
      (Except.ok (some (superGit full_args)),
        Cmd.eden getOriginArgs :: rewritten.2 ++ [Cmd.gitPassthrough full_args])
  else if match_args [PatternArg.lit "merge-base", WILDCARD_ARG,
      PatternArg.lit "HEAD"] args = Except.ok true then
    let remote := args.getD 1 ""
    let remote2 := String.mk (afterLastSlash remote.toList)
    let logArgs := ["log", "-T", "{node}", "-r", "ancestor(., " ++ remote2 ++ ")"]
    (Except.ok (some (eden logArgs)), [Cmd.eden logArgs])
  else if match_args [PatternArg.lit "push", PatternArg.lit remote_name] args =
      Except.ok true then
    if args.length = 2 then
      (Except.error (GitError.expectedMoreArgs args), [])
    else
      let is_force := args.getD 2 "" = "--force"
      let branch_args := args.drop (if is_force then 3 else 2)
      _push_branches is_force eden branch_args none
  else
    let rewritten := _rewrite_args eden args
    let full_args := ["--git-dir", S.git_dir] ++ rewritten.1
    (Except.ok (some (superGit full_args)),
      rewritten.2 ++ [Cmd.gitPassthrough full_args])

end EdenShell

/-- `EdenShell._run_eden_command(args)` from the source, seen at the level of
the single subprocess it spawns: it builds a fresh copy of the ambient process
environment with `HGPLAIN` set to `"1"`, prepends `EDEN_CLI` to the argv, and
runs it.  An environment is a finite map modeled as `String → Option String`.
The result records the argv, the environment handed to the subprocess, and
the ambient environment after the call (the source copies `os.environ` with
`dict(...)` before mutating, so the ambient map is returned as-is). -/
def runEdenCommandCall (ambient : String → Option String)
    (args : List String) :
    List String × (String → Option String) × (String → Option String) :=
  let env := fun k => if k = EDEN_PLAIN_ENV_VAR then some "1" else ambient k
  (EDEN_CLI :: args, env, ambient)


/-- A pattern element of a recognized kind: a literal string or the wildcard
sentinel (everything except `other`). -/
def PatternArg.isKnown : PatternArg → Bool
  | PatternArg.other _ => false
  | _ => true

/-- One pattern element accepting one candidate argument: the wildcard accepts
anything, a literal accepts exactly itself, an unrecognized element accepts
nothing (the loop raises before accepting). -/
def PatternArg.passes : PatternArg → String → Bool
  | PatternArg.wildcard, _ => true
  | PatternArg.lit s, a => s = a
  | PatternArg.other _, _ => false


/-- The fall-through condition of `EdenShell.git`: none of the four fixed
patterns (remote get-url, fetch --prune, merge-base, push) matches the
argument list, so the default pass-through case runs. -/
def fallsThrough (rn : String) (args : List String) : Prop :=
  match_args [PatternArg.lit "remote", PatternArg.lit "get-url",
      PatternArg.lit rn] args ≠ Except.ok true
  ∧ match_args [PatternArg.lit "fetch", PatternArg.lit "--prune",
      PatternArg.lit rn] args ≠ Except.ok true
  ∧ match_args [PatternArg.lit "merge-base", WILDCARD_ARG,
      PatternArg.lit "HEAD"] args ≠ Except.ok true
  ∧ match_args [PatternArg.lit "push", PatternArg.lit rn] args ≠ Except.ok true


/-- Builds the mapping token `<hash>:<refspec>` handed to the push case. -/
def mappingArg (p : String × String) : String := p.1 ++ ":" ++ p.2

/-- The destination branch derived from a refspec: a leading `refs/heads/`
marker is stripped, any other refspec is used unchanged. -/
def branchOf (r : String) : String :=
  if "refs/heads/".toList.isPrefixOf r.toList then
    String.mk (r.toList.drop "refs/heads/".toList.length)
  else r

/-- The eden push command issued for one `<hash>, <refspec>` mapping. -/
def pushCmdOf (p : String × String) : List String :=
  ["push", "-r", p.1, "--to", branchOf p.2, "--force"]

/-- The two eden commands (pull, then forced push) issued for one mapping. -/
def pushTraceOf (p : String × String) : List Cmd :=
  [Cmd.eden ["pull", "-r", p.1], Cmd.eden (pushCmdOf p)]

/-! ### Helper lemmas -/

lemma match_args_eq_matchLoop (P : List PatternArg) (A : List String)
    (h : P.length ≤ A.length) : match_args P A = matchLoop (P.zip A) := by
  unfold match_args
  rw [if_neg (Nat.not_lt.mpr h)]

lemma splitFirstColon_eq (h r : List Char) (hc : ':' ∉ h) :
    splitFirstColon (h ++ ':' :: r) = some (h, r) := by
  induction h with
  | nil => simp [splitFirstColon]
  | cons c t ih =>
    have hcne : c ≠ ':' := fun hch => hc (hch ▸ List.mem_cons_self c t)
    have ht : ':' ∉ t := fun hm => hc (List.mem_cons_of_mem c hm)
    simp only [List.cons_append, splitFirstColon, List.append_eq, if_neg hcne, ih ht]

lemma afterLastSlash_of_not_mem (l : List Char) (h : '/' ∉ l) :
    afterLastSlash l = l := by
  induction l with
  | nil => rfl
  | cons c t ih =>
    have hcne : c ≠ '/' := fun hch => h (hch ▸ List.mem_cons_self c t)
    have ht : '/' ∉ t := fun hm => h (List.mem_cons_of_mem c hm)
    simp only [afterLastSlash, if_neg ht, if_neg hcne]

lemma afterLastSlash_append (a b : List Char) (hb : '/' ∉ b) :
    afterLastSlash (a ++ '/' :: b) = b := by
  induction a with
  | nil => simp [afterLastSlash, hb]
  | cons c t ih =>
    have hmem : '/' ∈ t ++ '/' :: b := List.mem_append_right t (List.mem_cons_self _ b)
    simp only [List.cons_append, afterLastSlash, List.append_eq, if_pos hmem, ih]

lemma map_head_subst_of_not_mem (args : List String) (t : String)
    (h : "HEAD" ∉ args) :
    (args.map fun a => if a = "HEAD" then t else a) = args := by
  have : ∀ a ∈ args, (if a = "HEAD" then t else a) = a := by
    intro a ha
    rw [if_neg]
    intro hEq
    exact h (hEq ▸ ha)
  rw [List.map_congr_left this]
  exact List.map_id args


lemma match_args_ok_iff (P : List PatternArg) (A : List String)
    (hK : ∀ p ∈ P, p.isKnown = true) (hlen : P.length ≤ A.length) :
    (match_args P A = Except.ok true ↔
      ∀ (i : Nat) (s : String),
        P[i]? = some (PatternArg.lit s) → A[i]? = some s) := by
  induction P generalizing A with
  | nil =>
    simp [match_args, matchLoop]
  | cons p P ih =>
    cases A with
    | nil => simp at hlen
    | cons a A =>
      have hlen' : P.length ≤ A.length := by simpa using hlen
      have hK' : ∀ q ∈ P, q.isKnown = true :=
        fun q hq => hK q (List.mem_cons_of_mem p hq)
      rw [match_args_eq_matchLoop _ _ hlen, List.zip_cons_cons]
      cases p with
      | wildcard =>
        have hred : matchLoop ((PatternArg.wildcard, a) :: P.zip A)
            = matchLoop (P.zip A) := rfl
        rw [hred, ← match_args_eq_matchLoop P A hlen', ih A hK' hlen']
        constructor
        · intro h i s hi
          cases i with
          | zero => simp [PatternArg.lit.injEq] at hi
          | succ n =>
            simp only [List.getElem?_cons_succ] at hi ⊢
            exact h n s hi
        · intro h i s hi
          have hi' : (PatternArg.wildcard :: P)[i + 1]? = some (PatternArg.lit s) := by
            simpa using hi
          have h2 := h (i + 1) s hi'
          simpa using h2
      | lit s0 =>
        by_cases hsa : s0 = a
        · subst hsa
          have hred : matchLoop ((PatternArg.lit s0, s0) :: P.zip A)
              = matchLoop (P.zip A) := by
            simp [matchLoop]
          rw [hred, ← match_args_eq_matchLoop P A hlen', ih A hK' hlen']
          constructor
          · intro h i s hi
            cases i with
            | zero =>
              simp only [List.getElem?_cons_zero, Option.some.injEq,
                PatternArg.lit.injEq] at hi
              simp [hi]
            | succ n =>
              simp only [List.getElem?_cons_succ] at hi ⊢
              exact h n s hi
          · intro h i s hi
            have hi' : (PatternArg.lit s0 :: P)[i + 1]? = some (PatternArg.lit s) := by
              simpa using hi
            have h2 := h (i + 1) s hi'
            simpa using h2
        · have hred : matchLoop ((PatternArg.lit s0, a) :: P.zip A)
              = Except.ok false := by
            simp [matchLoop, hsa]
          rw [hred]
          constructor
          · intro h
            exact absurd h (by simp)
          · intro h
            have := h 0 s0 (by simp)
            simp only [List.getElem?_cons_zero, Option.some.injEq] at this
            exact absurd this.symm hsa
      | other d =>
        have := hK (PatternArg.other d) (List.mem_cons_self _ _)
        simp [PatternArg.isKnown] at this


lemma push_branches_spec (is_force : Bool) (e : EdenOracle)
    (L : List (String × String)) (hc : ∀ p ∈ L, ':' ∉ p.1.toList)
    (last : Option String) :
    EdenShell._push_branches is_force e (L.map mappingArg) last =
      ((match L.getLast? with
        | none => Except.ok last
        | some p => Except.ok (some (e (pushCmdOf p)))),
       (L.map pushTraceOf).flatten) := by
  induction L generalizing last with
  | nil => rfl
  | cons p L ih =>
    have hc0 : ':' ∉ p.1.toList := hc p (List.mem_cons_self _ _)
    have hcL : ∀ q ∈ L, ':' ∉ q.1.toList :=
      fun q hq => hc q (List.mem_cons_of_mem p hq)
    have htl : (mappingArg p).toList = p.1.toList ++ ':' :: p.2.toList := by
      show (p.1.toList ++ ":".toList) ++ p.2.toList
          = p.1.toList ++ ':' :: p.2.toList
      simp
    have hsplit := splitFirstColon_eq p.1.toList p.2.toList hc0
    simp only [List.map_cons]
    unfold EdenShell._push_branches
    rw [htl, hsplit]
    have hbr : (if "refs/heads/".toList.isPrefixOf p.2.toList then
        String.mk (p.2.toList.drop "refs/heads/".toList.length)
      else String.mk p.2.toList) = branchOf p.2 := by
      unfold branchOf
      by_cases hp : "refs/heads/".toList.isPrefixOf p.2.toList
      · rw [if_pos hp, if_pos hp]
      · rw [if_neg hp, if_neg hp]
        rfl
    simp only [hbr]
    rw [show String.mk p.1.toList = p.1 from rfl]
    rw [show (["push", "-r", p.1, "--to", branchOf p.2, "--force"]
        : List String) = pushCmdOf p from rfl]
    rw [ih hcL (some (e (pushCmdOf p)))]
    cases L with
    | nil => rfl
    | cons q L =>
      simp only [List.getLast?_cons_cons, List.map_cons, List.flatten_cons]
      rfl

/-! ### Claim theorems -/

/-- **C4.** For every pattern `P` (literal strings and wildcard markers only)
and candidate list `A`, `match_args P A` returns true iff `P` is no longer
than `A` and every literal element of `P` equals the candidate element at the
same position (trailing extra elements of `A` ignored); in particular it
returns false whenever `P` is longer than `A`. -/
theorem match_args_correct (P : List PatternArg) (A : List String)
    (hK : ∀ p ∈ P, p.isKnown = true) :
    (match_args P A = Except.ok true ↔
      (P.length ≤ A.length ∧ ∀ (i : Nat) (s : String),
        P[i]? = some (PatternArg.lit s) → A[i]? = some s))
    ∧ (A.length < P.length → match_args P A = Except.ok false) := by
  constructor
  · by_cases hlen : P.length ≤ A.length
    · rw [match_args_ok_iff P A hK hlen]
      constructor
      · intro h
        exact ⟨hlen, h⟩
      · intro h
        exact h.2
    · constructor
      · intro h
        exfalso
        unfold match_args at h
        rw [if_pos (Nat.lt_of_not_le hlen)] at h
        simp at h
      · intro h
        exact absurd h.1 hlen
  · intro h
    unfold match_args
    rw [if_pos h]

/-- Witness for C4: a length-2 pattern against a length-1 candidate returns
false. -/
theorem match_args_correct_witness :
    match_args [PatternArg.lit "a", WILDCARD_ARG] ["a"] = Except.ok false :=
  (match_args_correct [PatternArg.lit "a", WILDCARD_ARG] ["a"] (by decide)).2
    (by decide)

/-- **C9.** When the pattern contains an element of an unrecognized kind and
the matching loop reaches it (the pattern is no longer than the candidate and
every earlier pattern element accepts its candidate), `match_args` raises the
unknown-pattern-type error instead of returning a boolean. -/
theorem match_args_unknown_kind_raises (pre post : List PatternArg)
    (d : String) (A : List String)
    (hlen : (pre ++ PatternArg.other d :: post).length ≤ A.length)
    (hpre : ∀ pa ∈ pre.zip A, PatternArg.passes pa.1 pa.2 = true) :
    match_args (pre ++ PatternArg.other d :: post) A
      = Except.error (GitError.unknownPatternType d) := by
  induction pre generalizing A with
  | nil =>
    cases A with
    | nil => simp at hlen
    | cons a A =>
      rw [match_args_eq_matchLoop _ _ hlen]
      simp only [List.nil_append, List.zip_cons_cons]
      rfl
  | cons p pre ih =>
    cases A with
    | nil => simp at hlen
    | cons a A =>
      have hlen' : (pre ++ PatternArg.other d :: post).length ≤ A.length := by
        simpa using hlen
      have hpre' : ∀ pa ∈ pre.zip A, PatternArg.passes pa.1 pa.2 = true := by
        intro pa hpa
        apply hpre pa
        rw [List.zip_cons_cons]
        exact List.mem_cons_of_mem _ hpa
      have hp : PatternArg.passes p a = true := by
        apply hpre (p, a)
        rw [List.zip_cons_cons]
        exact List.mem_cons_self _ _
      rw [List.cons_append, match_args_eq_matchLoop _ _ (by simpa using hlen),
        List.zip_cons_cons]
      cases p with
      | wildcard =>
        have hred : matchLoop ((PatternArg.wildcard, a) ::
            (pre ++ PatternArg.other d :: post).zip A)
            = matchLoop ((pre ++ PatternArg.other d :: post).zip A) := rfl
        rw [hred, ← match_args_eq_matchLoop _ _ hlen']
        exact ih A hlen' hpre'
      | lit s =>
        have hsa : s = a := by
          simpa [PatternArg.passes] using hp
        subst hsa
        have hred : matchLoop ((PatternArg.lit s, s) ::
            (pre ++ PatternArg.other d :: post).zip A)
            = matchLoop ((pre ++ PatternArg.other d :: post).zip A) := by
          simp [matchLoop]
        rw [hred, ← match_args_eq_matchLoop _ _ hlen']
        exact ih A hlen' hpre'
      | other d2 =>
        simp [PatternArg.passes] at hp

/-- Witness for C9: a pattern whose head is an unrecognized element raises
against a length-1 candidate. -/
theorem match_args_unknown_kind_raises_witness :
    match_args [PatternArg.other "dict"] ["x"]
      = Except.error (GitError.unknownPatternType "dict") :=
  match_args_unknown_kind_raises [] [] "dict" ["x"] (by decide) (by decide)

/-- Counterexample for C1 as stated: at args `["fetch", "--prune"]` (with
remote name `origin`, repository handle `GD` and concrete oracles) the
translator does NOT fail - it returns the generic runner's output - and its
trace is nonempty (a subprocess call IS performed). -/
theorem fetch_prune_len2_no_error :
    (EdenShell.git ⟨⟨"origin"⟩, "GD"⟩ (fun _ => "EOUT") (fun _ => "GOUT")
        ["fetch", "--prune"]).1 = Except.ok (some "GOUT")
    ∧ (EdenShell.git ⟨⟨"origin"⟩, "GD"⟩ (fun _ => "EOUT") (fun _ => "GOUT")
        ["fetch", "--prune"]).2
      = [Cmd.gitPassthrough ["--git-dir", "GD", "fetch", "--prune"]] :=
  ⟨rfl, rfl⟩

/-- **C1 (amended).** For the argument list `["fetch", "--prune"]` (length 2)
the fetch pattern does not match (the pattern is longer than the argument
list), so the translator raises no error and instead forwards the list
through the generic pass-through path, issuing exactly one subprocess call
with the repository-path flag and handle prepended. -/
theorem fetch_prune_len2_passes_through (S : EdenShell) (e : EdenOracle)
    (g : GitOracle) :
    EdenShell.git S e g ["fetch", "--prune"] =
      (Except.ok (some (g ["--git-dir", S.git_dir, "fetch", "--prune"])),
        [Cmd.gitPassthrough ["--git-dir", S.git_dir, "fetch", "--prune"]]) := by
  unfold EdenShell.git
  simp [match_args, matchLoop, EdenShell._rewrite_args]

/-- **C2.** For every argument list matching the push pattern
`["push", <remote_name>, ...]`: with exactly 2 elements the translator fails
with the expected-more-args error; otherwise a third element equal to
`--force` is consumed as an optional force flag, all following elements are
treated as mapping strings and handed in order to the push sub-procedure
(`_push_branches`), whose last output is returned.  In particular
`["push", <remote_name>, "--force", "h1:refs/heads/b1"]` invokes the
sub-procedure exactly once, with hash `h1`, branch `b1` and the push forced. -/
theorem push_pattern_dispatch (S : EdenShell) (e : EdenOracle)
    (g : GitOracle) (tail : List String) (is_force : Bool)
    (L : List (String × String)) (hc : ∀ p ∈ L, ':' ∉ p.1.toList)
    (last : Option String) :
    (EdenShell.git S e g ("push" :: S.conf.remote_name :: tail) =
      match tail with
      | [] =>
        (Except.error
          (GitError.expectedMoreArgs ["push", S.conf.remote_name]), [])
      | t0 :: trest =>
        if t0 = "--force" then EdenShell._push_branches true e trest none
        else EdenShell._push_branches false e (t0 :: trest) none)
    ∧ (EdenShell._push_branches is_force e (L.map mappingArg) last =
        ((match L.getLast? with
          | none => Except.ok last
          | some p => Except.ok (some (e (pushCmdOf p)))),
         (L.map pushTraceOf).flatten))
    ∧ EdenShell.git S e g ["push", S.conf.remote_name, "--force",
        "h1:refs/heads/b1"] =
      (Except.ok (some (e ["push", "-r", "h1", "--to", "b1", "--force"])),
        [Cmd.eden ["pull", "-r", "h1"],
         Cmd.eden ["push", "-r", "h1", "--to", "b1", "--force"]]) := by
  refine ⟨?_, push_branches_spec is_force e L hc last, ?_⟩
  · unfold EdenShell.git
    cases tail with
    | nil =>
      simp [match_args, matchLoop]
    | cons t0 trest =>
      by_cases hf : t0 = "--force" <;> simp [match_args, matchLoop, hf]
  · unfold EdenShell.git
    simp [match_args, matchLoop, EdenShell._push_branches, splitFirstColon,
      List.isPrefixOf]

/-- Witness for C2: remote name `origin`, args
`["push", "origin", "--force", "h1:refs/heads/b1"]`; the sub-procedure runs
exactly once with hash `h1` and branch `b1`, and the push is forced. -/
theorem push_pattern_dispatch_witness :
    EdenShell.git ⟨⟨"origin"⟩, "GD"⟩ (fun _ => "OUT") (fun _ => "G")
        ["push", "origin", "--force", "h1:refs/heads/b1"] =
      (Except.ok (some "OUT"),
        [Cmd.eden ["pull", "-r", "h1"],
         Cmd.eden ["push", "-r", "h1", "--to", "b1", "--force"]]) :=
  (push_pattern_dispatch ⟨⟨"origin"⟩, "GD"⟩ (fun _ => "OUT") (fun _ => "G")
    ["--force", "h1:refs/heads/b1"] true [("h1", "refs/heads/b1")]
    (by decide) none).2.2

/-- **C3.** For one push mapping `<hash>:<refspec>` (the hash containing no
colon, so the split lands at the separator): a refspec of the form
`refs/heads/<b>` has exactly that prefix stripped, and a refspec not starting
with `refs/heads/` is used unchanged; in both cases the sub-procedure first
pulls that single revision and only then pushes it, and the push carries
`--force` regardless of the `is_force` flag of the original command. -/
theorem push_branch_mapping (e : EdenOracle) (is_force : Bool) (hash : String)
    (hc : ':' ∉ hash.toList) :
    (∀ b : String,
      EdenShell._push_branches is_force e [hash ++ ":refs/heads/" ++ b] none =
        (Except.ok (some (e ["push", "-r", hash, "--to", b, "--force"])),
          [Cmd.eden ["pull", "-r", hash],
           Cmd.eden ["push", "-r", hash, "--to", b, "--force"]]))
    ∧ (∀ r : String, "refs/heads/".toList.isPrefixOf r.toList = false →
      EdenShell._push_branches is_force e [hash ++ ":" ++ r] none =
        (Except.ok (some (e ["push", "-r", hash, "--to", r, "--force"])),
          [Cmd.eden ["pull", "-r", hash],
           Cmd.eden ["push", "-r", hash, "--to", r, "--force"]])) := by
  constructor
  · intro b
    have htl : (hash ++ ":refs/heads/" ++ b).toList
        = hash.toList ++ ':' :: ("refs/heads/".toList ++ b.toList) := by
      show (hash.toList ++ ":refs/heads/".toList) ++ b.toList
          = hash.toList ++ ':' :: ("refs/heads/".toList ++ b.toList)
      simp
    have hsplit := splitFirstColon_eq hash.toList
      ("refs/heads/".toList ++ b.toList) hc
    have hpre : "refs/heads/".toList.isPrefixOf
        ("refs/heads/".toList ++ b.toList) = true := by
      rw [List.isPrefixOf_iff_prefix]
      exact List.prefix_append _ _
    unfold EdenShell._push_branches
    rw [htl, hsplit]
    simp only [hpre, if_true]
    rw [List.drop_left]
    rfl
  · intro r hnp
    have htl : (hash ++ ":" ++ r).toList
        = hash.toList ++ ':' :: r.toList := by
      show (hash.toList ++ ":".toList) ++ r.toList
          = hash.toList ++ ':' :: r.toList
      simp
    have hsplit := splitFirstColon_eq hash.toList r.toList hc
    unfold EdenShell._push_branches
    rw [htl, hsplit]
    simp only [hnp, Bool.false_eq_true, if_false]
    rfl

/-- Witness for C3: the mapping `h1:refs/heads/b1` (prefixed refspec) and the
mapping `h1:zzz` (unprefixed refspec), each processed with one pull followed
by one forced push. -/
theorem push_branch_mapping_witness :
    EdenShell._push_branches true (fun _ => "OUT") ["h1:refs/heads/b1"] none =
      (Except.ok (some "OUT"),
        [Cmd.eden ["pull", "-r", "h1"],
         Cmd.eden ["push", "-r", "h1", "--to", "b1", "--force"]]) :=
  (push_branch_mapping (fun _ => "OUT") true "h1" (by decide)).1 "b1"

/-- **C5.** For the argument list `["fetch", "--prune", <remote_name>]`
(exactly 3 elements), the translator first resolves the remote URL from the
backing tool, replaces the third element with it, appends the fixed refspec
`+refs/heads/*:refs/remotes/origin/*`, and forwards the result through the
generic pass-through path (repository-path flag and handle prepended).  The
resolved URL is assumed not to be the literal token `HEAD` (otherwise the
pass-through HEAD-rewriting would touch it). -/
theorem fetch_prune_translation (S : EdenShell) (e : EdenOracle)
    (g : GitOracle) (hO : e getOriginArgs ≠ "HEAD") :
    EdenShell.git S e g ["fetch", "--prune", S.conf.remote_name] =
      (Except.ok (some (g ["--git-dir", S.git_dir, "fetch", "--prune",
          e getOriginArgs, "+refs/heads/*:refs/remotes/origin/*"])),
        [Cmd.eden getOriginArgs,
         Cmd.gitPassthrough ["--git-dir", S.git_dir, "fetch", "--prune",
           e getOriginArgs, "+refs/heads/*:refs/remotes/origin/*"]]) := by
  have hO' : ¬("HEAD" = e getOriginArgs) := fun h => hO h.symm
  unfold EdenShell.git
  simp [match_args, matchLoop, EdenShell._rewrite_args, hO']

/-- Witness for C5 at remote name `origin`, handle `GD` and concrete
oracles. -/
theorem fetch_prune_translation_witness :
    EdenShell.git ⟨⟨"origin"⟩, "GD"⟩ (fun _ => "URL") (fun _ => "G")
        ["fetch", "--prune", "origin"] =
      (Except.ok (some "G"),
        [Cmd.eden ["config", "paths.default"],
         Cmd.gitPassthrough ["--git-dir", "GD", "fetch", "--prune", "URL",
           "+refs/heads/*:refs/remotes/origin/*"]]) :=
  fetch_prune_translation ⟨⟨"origin"⟩, "GD"⟩ (fun _ => "URL") (fun _ => "G")
    (by decide)

/-- **C6.** For every argument list matching the merge-base pattern with a
remote ref in position 1: everything up to and including the last `/` of the
ref is stripped (the ref is used unchanged when it contains no `/`), and the
translator issues exactly one backing-tool query for the ancestor commit
between the working revision and that branch name, returning its output. -/
theorem merge_base_translation (S : EdenShell) (e : EdenOracle)
    (g : GitOracle) (rest : List String) :
    (∀ a b : String, '/' ∉ b.toList →
      EdenShell.git S e g ("merge-base" :: (a ++ "/" ++ b) :: "HEAD" :: rest) =
        (Except.ok (some (e ["log", "-T", "{node}", "-r",
            "ancestor(., " ++ b ++ ")"])),
          [Cmd.eden ["log", "-T", "{node}", "-r",
            "ancestor(., " ++ b ++ ")"]]))
    ∧ (∀ r : String, '/' ∉ r.toList →
      EdenShell.git S e g ("merge-base" :: r :: "HEAD" :: rest) =
        (Except.ok (some (e ["log", "-T", "{node}", "-r",
            "ancestor(., " ++ r ++ ")"])),
          [Cmd.eden ["log", "-T", "{node}", "-r",
            "ancestor(., " ++ r ++ ")"]])) := by
  constructor
  · intro a b hb
    have hlen3 : (3 : Nat)
        ≤ ("merge-base" :: (a ++ "/" ++ b) :: "HEAD" :: rest).length := by
      simp only [List.length_cons]
      omega
    have hm1 : match_args [PatternArg.lit "remote", PatternArg.lit "get-url",
        PatternArg.lit S.conf.remote_name]
        ("merge-base" :: (a ++ "/" ++ b) :: "HEAD" :: rest)
        = Except.ok false := by
      rw [match_args_eq_matchLoop _ _ (le_trans (by norm_num) hlen3)]
      rfl
    have hm2 : match_args [PatternArg.lit "fetch", PatternArg.lit "--prune",
        PatternArg.lit S.conf.remote_name]
        ("merge-base" :: (a ++ "/" ++ b) :: "HEAD" :: rest)
        = Except.ok false := by
      rw [match_args_eq_matchLoop _ _ (le_trans (by norm_num) hlen3)]
      rfl
    have hm3 : match_args [PatternArg.lit "merge-base", WILDCARD_ARG,
        PatternArg.lit "HEAD"]
        ("merge-base" :: (a ++ "/" ++ b) :: "HEAD" :: rest)
        = Except.ok true := by
      rw [match_args_eq_matchLoop _ _ (le_trans (by norm_num) hlen3)]
      rfl
    have hals : String.mk (afterLastSlash (a ++ "/" ++ b).toList) = b := by
      have htl : (a ++ "/" ++ b).toList = a.toList ++ '/' :: b.toList := by
        show (a.toList ++ "/".toList) ++ b.toList
            = a.toList ++ '/' :: b.toList
        simp
      rw [htl, afterLastSlash_append _ _ hb]
      rfl
    simp only [EdenShell.git]
    rw [hm1, hm2, hm3]
    simp only [List.getD_cons_succ, List.getD_cons_zero]
    rw [hals]
    simp
  · intro r hr
    have hlen3 : (3 : Nat)
        ≤ ("merge-base" :: r :: "HEAD" :: rest).length := by
      simp only [List.length_cons]
      omega
    have hm1 : match_args [PatternArg.lit "remote", PatternArg.lit "get-url",
        PatternArg.lit S.conf.remote_name]
        ("merge-base" :: r :: "HEAD" :: rest) = Except.ok false := by
      rw [match_args_eq_matchLoop _ _ (le_trans (by norm_num) hlen3)]
      rfl
    have hm2 : match_args [PatternArg.lit "fetch", PatternArg.lit "--prune",
        PatternArg.lit S.conf.remote_name]
        ("merge-base" :: r :: "HEAD" :: rest) = Except.ok false := by
      rw [match_args_eq_matchLoop _ _ (le_trans (by norm_num) hlen3)]
      rfl
    have hm3 : match_args [PatternArg.lit "merge-base", WILDCARD_ARG,
        PatternArg.lit "HEAD"]
        ("merge-base" :: r :: "HEAD" :: rest) = Except.ok true := by
      rw [match_args_eq_matchLoop _ _ (le_trans (by norm_num) hlen3)]
      rfl
    have hals : String.mk (afterLastSlash r.toList) = r := by
      rw [afterLastSlash_of_not_mem _ hr]
      rfl
    simp only [EdenShell.git]
    rw [hm1, hm2, hm3]
    simp only [List.getD_cons_succ, List.getD_cons_zero]
    rw [hals]
    simp

/-- Witness for C6 at `["merge-base", "origin/release-1.0", "HEAD"]`: the
derived branch name is `release-1.0`. -/
theorem merge_base_translation_witness :
    EdenShell.git ⟨⟨"origin"⟩, "GD"⟩ (fun _ => "ANC") (fun _ => "G")
        ["merge-base", "origin/release-1.0", "HEAD"] =
      (Except.ok (some "ANC"),
        [Cmd.eden ["log", "-T", "{node}", "-r",
          "ancestor(., release-1.0)"]]) :=
  (merge_base_translation ⟨⟨"origin"⟩, "GD"⟩ (fun _ => "ANC") (fun _ => "G")
    []).1 "origin" "release-1.0" (by decide)

/-- **C7.** For every argument list on which no fixed pattern matches (the
default pass-through case), the translator substitutes the current-tip
commit identifier (queried once from the backing tool) for every literal
`HEAD` token, leaves all other elements unchanged and in order, prepends
`--git-dir` and the stored repository handle, and delegates to the generic
command runner. -/
theorem passthrough_translation (S : EdenShell) (e : EdenOracle)
    (g : GitOracle) (args : List String)
    (h : fallsThrough S.conf.remote_name args) :
    EdenShell.git S e g args =
      (Except.ok (some (g ("--git-dir" :: S.git_dir ::
          args.map fun a => if a = "HEAD" then e resolveHeadArgs else a))),
        (if "HEAD" ∈ args then [Cmd.eden resolveHeadArgs] else []) ++
          [Cmd.gitPassthrough ("--git-dir" :: S.git_dir ::
            args.map fun a => if a = "HEAD" then e resolveHeadArgs else a)]) := by
  obtain ⟨h1, h2, h3, h4⟩ := h
  simp only [EdenShell.git]
  rw [if_neg h1, if_neg h2, if_neg h3, if_neg h4]
  unfold EdenShell._rewrite_args
  by_cases hh : "HEAD" ∈ args
  · rw [if_pos hh]
    simp [hh]
  · rw [if_neg hh]
    simp [hh, map_head_subst_of_not_mem args _ hh]

/-- Witness for C7 at `["rev-parse", "HEAD"]` with remote name `origin`:
`HEAD` is rewritten to the tip returned by the backing tool. -/
theorem passthrough_translation_witness :
    EdenShell.git ⟨⟨"origin"⟩, "GD"⟩ (fun _ => "TIP") (fun _ => "G")
        ["rev-parse", "HEAD"] =
      (Except.ok (some "G"),
        [Cmd.eden ["log", "-r", "max(.::)", "-T", "{node}"],
         Cmd.gitPassthrough ["--git-dir", "GD", "rev-parse", "TIP"]]) :=
  passthrough_translation ⟨⟨"origin"⟩, "GD"⟩ (fun _ => "TIP") (fun _ => "G")
    ["rev-parse", "HEAD"] ⟨by decide, by decide, by decide, by decide⟩

/-- **C8.** Pass-through rewriting of an argument list containing no `HEAD`
token is the identity, hence idempotent and independent of the oracle:
rewriting once returns the list unchanged with no backing-tool call, and
rewriting the result again (even under a different oracle) returns the same
list. -/
theorem rewrite_args_idempotent_no_head (e e2 : EdenOracle)
    (args : List String) (h : "HEAD" ∉ args) :
    EdenShell._rewrite_args e args = (args, [])
    ∧ EdenShell._rewrite_args e2 (EdenShell._rewrite_args e args).1
      = (args, []) := by
  have h1 : EdenShell._rewrite_args e args = (args, []) := by
    unfold EdenShell._rewrite_args
    rw [if_neg h]
  refine ⟨h1, ?_⟩
  rw [h1]
  unfold EdenShell._rewrite_args
  rw [if_neg h]

/-- Witness for C8 at `["log", "abc"]` with two distinct oracles. -/
theorem rewrite_args_idempotent_no_head_witness :
    EdenShell._rewrite_args (fun _ => "T1") ["log", "abc"]
      = (["log", "abc"], [])
    ∧ EdenShell._rewrite_args (fun _ => "T2")
        (EdenShell._rewrite_args (fun _ => "T1") ["log", "abc"]).1
      = (["log", "abc"], []) :=
  rewrite_args_idempotent_no_head (fun _ => "T1") (fun _ => "T2")
    ["log", "abc"] (by decide)

/-- **C10.** Every backing-tool invocation runs argv `EDEN_CLI :: args` with
an environment that binds `HGPLAIN` to `"1"`, agrees with the ambient process
environment on every other variable, and leaves the ambient environment
itself unchanged (the source mutates only a fresh `dict(os.environ)` copy). -/
theorem run_eden_command_plain_env (ambient : String → Option String)
    (args : List String) :
    (runEdenCommandCall ambient args).1 = EDEN_CLI :: args
    ∧ (runEdenCommandCall ambient args).2.1 EDEN_PLAIN_ENV_VAR = some "1"
    ∧ (∀ k : String, k ≠ EDEN_PLAIN_ENV_VAR →
        (runEdenCommandCall ambient args).2.1 k = ambient k)
    ∧ (runEdenCommandCall ambient args).2.2 = ambient := by
  refine ⟨rfl, ?_, ?_, rfl⟩
  · simp [runEdenCommandCall]
  · intro k hk
    simp [runEdenCommandCall, hk]

/-- Witness for C10 with an empty ambient environment and args `["pull"]`:
`HGPLAIN` is set in the subprocess environment and `PATH` stays unbound. -/
theorem run_eden_command_plain_env_witness :
    (runEdenCommandCall (fun _ => none) ["pull"]).2.1 "HGPLAIN" = some "1"
    ∧ (runEdenCommandCall (fun _ => none) ["pull"]).2.1 "PATH" = none :=
  ⟨(run_eden_command_plain_env (fun _ => none) ["pull"]).2.1,
   (run_eden_command_plain_env (fun _ => none) ["pull"]).2.2.1 "PATH"
     (by decide)⟩
